import Mathlib

/-!
Verification development for the metasearch GitHub connector engines
(src/engines/github-users.ts: the "github_users" engine and the "github"
organization engine, plus the gist-enabled "github_users" variant).

Modelling conventions:
* TypeScript objects become Lean structures; `null`/`undefined`-able fields
  become `Option`.
* A JavaScript `Set` of objects compares members by reference identity
  (SameValueZero).  Every repository node handed to `Set.add` in the source
  is a fresh object produced by parsing an HTTP response body, so `add`
  never finds an existing member and always inserts.  We therefore model
  such a set as a `List` in insertion order and `add` as appending.
* `Array.prototype.sort` (stable per ES2019) with a comparator `c` is
  modelled as a stable insertion sort that keeps `a` before `b` exactly
  when `c a b ≤ 0`.
* Fallible awaits are modelled with `Except Unit`; an `Except.error` is a
  rejected promise (a thrown exception).
* The helpers imported from `src/util` (`fuzzyIncludes`, `escapeQuotes`,
  `getUnixTime`, `rateLimit`) are not part of the sources; where a claim
  needs them they are modelled from the spec and marked as such.
-/

/-- Stable insertion used to model JS stable sorting: `a` is placed before
the first already-sorted element `b` with `le a b`. -/
def jsInsert (le : α → α → Bool) (a : α) : List α → List α
  | [] => [a]
  | b :: l => if le a b then a :: b :: l else b :: jsInsert le a l

/-- Models `Array.prototype.sort` with a comparator `c`, as the stable sort
by the total preorder `le a b ↔ c a b ≤ 0`. -/
def jsSortBy (le : α → α → Bool) : List α → List α
  | [] => []
  | a :: l => jsInsert le a (jsSortBy le l)

/-- Models `Set.add` for freshly parsed JS objects: membership is reference
identity and every added node is a fresh reference, so adding a whole page
of nodes appends them in order. -/
def jsSetAddAll (s : List α) (page : List α) : List α := s ++ page

/-- The `Repo` interface of the source: one repository node. -/
structure Repo where
  description : Option String
  isArchived : Bool
  isFork : Bool
  name : String
deriving DecidableEq, Repr

/-- The `pageInfo` object of a GraphQL repositories connection. -/
structure PageInfo where
  endCursor : Option String
  hasNextPage : Bool
deriving DecidableEq, Repr

/-- The `repositories` connection of a GraphQL response; an edge is
represented by its `node`.  Both fields are optional because the source
reads them defensively (users variant) or not (org variant). -/
structure ReposConnection where
  edges : Option (List Repo)
  pageInfo : Option PageInfo
deriving DecidableEq, Repr

/-- The `user` object of a users-variant GraphQL response. -/
structure UserField where
  repositories : Option ReposConnection
deriving DecidableEq, Repr

/-- The `data` object of a users-variant GraphQL response. -/
structure UserRespData where
  user : Option UserField
deriving DecidableEq, Repr

/-- One users-variant GraphQL response body, after
`const { data } = response.data || {}`. -/
structure UserResp where
  data : Option UserRespData
deriving DecidableEq, Repr

/-- The connection reached by `data.user.repositories`, if every step of the
chain is present; `none` exactly when the source guard
`!data || !data.user || !data.user.repositories` fires. -/
def UserResp.conn (r : UserResp) : Option ReposConnection :=
  (r.data.bind (fun d => d.user)).bind (fun u => u.repositories)

/-- Edges with the source default `edges = []` applied. -/
def ReposConnection.edgesD (c : ReposConnection) : List Repo :=
  c.edges.getD []

/-- Page info with the source default `pageInfo = \x7b hasNextPage: false \x7d`
applied; the defaulted object has no `endCursor`, modelled as `none`. -/
def ReposConnection.pageInfoD (c : ReposConnection) : PageInfo :=
  c.pageInfo.getD ⟨none, false⟩

/-- The `hasNextPage` flag a users-variant response presents to the loop
(with defaults applied); `false` when the shape guard fires. -/
def respFlag (r : UserResp) : Bool :=
  match r.conn with
  | some c => c.pageInfoD.hasNextPage
  | none => false

/-- The `endCursor` a users-variant response presents to the loop. -/
def respEndCursor (r : UserResp) : Option String :=
  match r.conn with
  | some c => c.pageInfoD.endCursor
  | none => none

/-- The page items a users-variant response contributes. -/
def respEdges (r : UserResp) : List Repo :=
  match r.conn with
  | some c => c.edgesD
  | none => []

/-- Observable outcome of one account's paginated walk: the accumulated
items, the cursors of the page requests issued (in order; `none` = no
`after:` clause), and whether the loop exited by `break` within the
supplied responses. -/
structure WalkOut where
  repos : List Repo
  requests : List (Option String)
  completed : Bool
deriving DecidableEq, Repr

/-- The `while (true)` pagination loop of the users variants (`getRepos` /
`getReposAndGists`), driven by the list of successive response bodies.  Each
recursive step consumes exactly one response: the request for it is issued
with the current cursor, then the body is inspected as in the source. -/
def walkUser (cursor : Option String) (acc : List Repo) : List UserResp → WalkOut
  | [] => ⟨acc, [], false⟩
  | r :: rs =>
    match r.conn with
    | none => ⟨acc, [cursor], true⟩
    | some conn =>
      let acc' := jsSetAddAll acc conn.edgesD
      let pi := conn.pageInfoD
      if pi.hasNextPage then
        let out := walkUser pi.endCursor acc' rs
        ⟨out.repos, cursor :: out.requests, out.completed⟩
      else
        ⟨acc', [cursor], true⟩

/-- The per-account loop of the users-variant producer: each account is
walked independently and its accumulated set recorded, in order. -/
def getReposUsers : List (String × List UserResp) → List (String × List Repo)
  | [] => []
  | (u, resps) :: rest => (u, (walkUser none [] resps).repos) :: getReposUsers rest

/-- Decides that a response list is a well-shaped finite pagination chain:
nonempty, every response passes the shape guard, every response but the last
has `hasNextPage = true`, and the last has `hasNextPage = false`. -/
def isGoodChain : List UserResp → Bool
  | [] => false
  | [r] => r.conn.isSome && !(respFlag r)
  | r :: rs => r.conn.isSome && respFlag r && isGoodChain rs

/-- Value-deduplicated union of all pages' items, following the words of the
spec (for comparison with the walk the source actually performs). -/
def specDedupUnion (pages : List UserResp) : List Repo :=
  ((pages.map respEdges).flatten).dedup

theorem walkUser_cons_none {r : UserResp} (h : r.conn = none)
    (cursor : Option String) (acc : List Repo) (rs : List UserResp) :
    walkUser cursor acc (r :: rs) = ⟨acc, [cursor], true⟩ := by
  simp only [walkUser, h]

theorem walkUser_cons_last {r : UserResp} {conn : ReposConnection}
    (h : r.conn = some conn) (hf : conn.pageInfoD.hasNextPage = false)
    (cursor : Option String) (acc : List Repo) (rs : List UserResp) :
    walkUser cursor acc (r :: rs) = ⟨jsSetAddAll acc conn.edgesD, [cursor], true⟩ := by
  simp only [walkUser, h, hf]
  simp

theorem walkUser_cons_next {r : UserResp} {conn : ReposConnection}
    (h : r.conn = some conn) (hf : conn.pageInfoD.hasNextPage = true)
    (cursor : Option String) (acc : List Repo) (rs : List UserResp) :
    walkUser cursor acc (r :: rs) =
      ⟨(walkUser conn.pageInfoD.endCursor (jsSetAddAll acc conn.edgesD) rs).repos,
       cursor :: (walkUser conn.pageInfoD.endCursor (jsSetAddAll acc conn.edgesD) rs).requests,
       (walkUser conn.pageInfoD.endCursor (jsSetAddAll acc conn.edgesD) rs).completed⟩ := by
  simp only [walkUser, h, hf]
  simp

theorem walkUser_goodChain (resps : List UserResp) :
    ∀ cursor acc, isGoodChain resps = true →
      walkUser cursor acc resps =
        ⟨acc ++ (resps.map respEdges).flatten,
         cursor :: resps.dropLast.map respEndCursor, true⟩ := by
  induction resps with
  | nil => intro cursor acc h; simp [isGoodChain] at h
  | cons r rs ih =>
    intro cursor acc h
    cases rs with
    | nil =>
      simp only [isGoodChain, Bool.and_eq_true, Bool.not_eq_true'] at h
      obtain ⟨hc, hf⟩ := h
      obtain ⟨conn, hconn⟩ := Option.isSome_iff_exists.mp hc
      simp only [respFlag, hconn] at hf
      rw [walkUser_cons_last hconn hf]
      simp [jsSetAddAll, respEdges, hconn]
    | cons r2 rs2 =>
      simp only [isGoodChain, Bool.and_eq_true] at h
      obtain ⟨⟨hc, hf⟩, hrest⟩ := h
      obtain ⟨conn, hconn⟩ := Option.isSome_iff_exists.mp hc
      simp only [respFlag, hconn] at hf
      rw [walkUser_cons_next hconn hf,
        ih conn.pageInfoD.endCursor (jsSetAddAll acc conn.edgesD) hrest]
      simp [jsSetAddAll, respEdges, hconn, respEndCursor,
        List.dropLast_cons_of_ne_nil]

/-- The `organization` object of an org-variant GraphQL response. -/
structure OrgField where
  repositories : Option ReposConnection
deriving DecidableEq, Repr

/-- The `data` object of an org-variant GraphQL response. -/
structure OrgRespData where
  organization : Option OrgField
deriving DecidableEq, Repr

/-- One org-variant GraphQL response body, after
`const { data } = response.data || {}`. -/
structure OrgResp where
  data : Option OrgRespData
deriving DecidableEq, Repr

/-- The object reached by `data.organization`; `none` exactly when the org
variant's guard `!data || !data.organization` fires. -/
def OrgResp.org (r : OrgResp) : Option OrgField :=
  r.data.bind (fun d => d.organization)

/-- The org-variant pagination loop.  Unlike the users variant, after its
guard it destructures `data.organization.repositories` and reads
`edges.map` and `pageInfo.hasNextPage` without defaults, so a missing
`repositories`, `edges` or `pageInfo` raises a TypeError that rejects the
whole producer; this is modelled by `Except.error`.  The `Bool` in the
result records whether the loop exited by `break` within the supplied
responses. -/
def walkOrg (cursor : Option String) (acc : List Repo) :
    List OrgResp → Except Unit (List Repo × Bool)
  | [] => .ok (acc, false)
  | r :: rs =>
    match r.org with
    | none => .ok (acc, true)
    | some orgF =>
      match orgF.repositories with
      | none => .error ()
      | some conn =>
        match conn.edges with
        | none => .error ()
        | some edges =>
          match conn.pageInfo with
          | none => .error ()
          | some pi =>
            let acc' := jsSetAddAll acc edges
            if pi.hasNextPage then walkOrg pi.endCursor acc' rs
            else .ok (acc', true)

/-- The per-account loop of the org-variant producer; a TypeError thrown
while walking one account rejects the whole batch, so later accounts are
not reached. -/
def getReposOrgs : List (String × List OrgResp) → Except Unit (List (String × List Repo))
  | [] => .ok []
  | (o, resps) :: rest => do
    let w ← walkOrg none [] resps
    let tail ← getReposOrgs rest
    return (o, w.1) :: tail

theorem jsInsert_perm (le : α → α → Bool) (a : α) (l : List α) :
    List.Perm (jsInsert le a l) (a :: l) := by
  induction l with
  | nil => simp [jsInsert]
  | cons b l ih =>
    by_cases h : le a b
    · simp [jsInsert, h]
    · simp only [jsInsert, h, if_neg]
      simp only [Bool.false_eq_true, if_false]
      exact (ih.cons b).trans (List.Perm.swap a b l)

theorem jsSortBy_perm (le : α → α → Bool) (l : List α) :
    List.Perm (jsSortBy le l) l := by
  induction l with
  | nil => simp [jsSortBy]
  | cons a l ih =>
    exact (jsInsert_perm le a (jsSortBy le l)).trans (ih.cons a)

theorem jsInsert_pairwise (le : α → α → Bool)
    (htot : ∀ a b, le a b = true ∨ le b a = true)
    (htrans : ∀ a b c, le a b = true → le b c = true → le a c = true)
    (a : α) (l : List α) (hl : l.Pairwise (fun x y => le x y = true)) :
    (jsInsert le a l).Pairwise (fun x y => le x y = true) := by
  induction l with
  | nil => simp [jsInsert]
  | cons b l ih =>
    rcases List.pairwise_cons.mp hl with ⟨hb, hl'⟩
    by_cases h : le a b
    · simp only [jsInsert, h, if_pos]
      refine List.pairwise_cons.mpr ⟨?_, hl⟩
      intro x hx
      rcases List.mem_cons.mp hx with rfl | hx
      · exact h
      · exact htrans a b x h (hb x hx)
    · have hba : le b a = true := by
        rcases htot a b with hab | hba
        · exact absurd hab h
        · exact hba
      simp only [jsInsert, h]
      simp only [Bool.false_eq_true, if_false]
      refine List.pairwise_cons.mpr ⟨?_, ih hl'⟩
      intro x hx
      have hx' := (jsInsert_perm le a l).mem_iff.mp hx
      rcases List.mem_cons.mp hx' with rfl | hmem
      · exact hba
      · exact hb x hmem

theorem jsSortBy_pairwise (le : α → α → Bool)
    (htot : ∀ a b, le a b = true ∨ le b a = true)
    (htrans : ∀ a b c, le a b = true → le b c = true → le a c = true)
    (l : List α) :
    (jsSortBy le l).Pairwise (fun x y => le x y = true) := by
  induction l with
  | nil => simp [jsSortBy]
  | cons a l ih => exact jsInsert_pairwise le htot htrans a (jsSortBy le l) ih

/-- Decides that the first list is a prefix of the second. -/
def isPrefixL [DecidableEq α] : List α → List α → Bool
  | [], _ => true
  | _ :: _, [] => false
  | a :: as, b :: bs => a = b && isPrefixL as bs

/-- Decides that `pat` occurs as a contiguous segment of `text`. -/
def containsSeg [DecidableEq α] (pat : List α) : List α → Bool
  | [] => isPrefixL pat []
  | c :: cs => isPrefixL pat (c :: cs) || containsSeg pat cs

/-- Modelled from the spec: the normalization step of `fuzzyIncludes` from
`src/util` (not part of the sources) — case- and whitespace-insensitive,
per the FuzzyMatcher contract and the testable property of the spec. -/
def fuzzyNormalize (s : String) : List Char :=
  (s.toList.filter (fun c => !c.isWhitespace)).map Char.toLower

/-- Modelled from the spec: `fuzzyIncludes(haystack, query)` from `src/util`
(not part of the sources) — true when the normalized query is a literal
contiguous segment of the normalized haystack. -/
def fuzzyIncludes (s q : String) : Bool :=
  containsSeg (fuzzyNormalize q) (fuzzyNormalize s)

/-- Modelled from the spec: `escapeQuotes` from `src/util` (not part of the
sources) — escapes embedded double-quote characters with a backslash. -/
def escapeQuotes (s : String) : String :=
  String.mk (s.toList.flatMap (fun c => if c = '"' then ['\\', '"'] else [c]))

/-- Drops the leading spaces of a character list (greedy match of a
space-star regex piece against a following non-space requirement). -/
def dropSpaces : List Char → List Char
  | ' ' :: cs => dropSpaces cs
  | cs => cs

/-- Character class `[a-z-]` of the snippet-stripping regex. -/
def isShortChar (c : Char) : Bool :=
  ('a' ≤ c && c ≤ 'z') || c = '-'

/-- Attempts to match the regex piece ` *:[a-z-]+: *` at the head of the
list; on success returns the remainder after the (greedy) match.  No
backtracking is needed because the space, colon and `[a-z-]` classes are
pairwise disjoint. -/
def shortcodeMatch (s : List Char) : Option (List Char) :=
  match dropSpaces s with
  | ':' :: t =>
    match t.span isShortChar with
    | (letters, rest) =>
      if letters.isEmpty then none
      else
        match rest with
        | ':' :: t2 => some (dropSpaces t2)
        | _ => none
  | _ => none

/-- Global regex replacement loop of `description.replace(/ *:[a-z-]+: */g,
"")`: scan left to right, delete the leftmost match, resume after it.  The
fuel argument bounds the scan by the input length; every step either
consumes the head character or a nonempty match, so the input length is
always enough fuel. -/
def stripShortcodesAux : Nat → List Char → List Char
  | _, [] => []
  | 0, s => s
  | f + 1, c :: cs =>
    match shortcodeMatch (c :: cs) with
    | some rest => stripShortcodesAux f rest
    | none => c :: stripShortcodesAux f cs

/-- The snippet transformation of the source:
`description.replace(/ *:[a-z-]+: */g, "")`. -/
def stripShortcodes (s : String) : String :=
  String.mk (stripShortcodesAux s.length s.toList)

/-- Attempts to strip one shortcode token anchored at the END of the input,
working on the reversed character list; the token pattern read backwards is
again spaces, colon, `[a-z-]` letters, colon, spaces. -/
def revTokenMatch (s : List Char) : Option (List Char) :=
  match dropSpaces s with
  | ':' :: t =>
    match t.span isShortChar with
    | (letters, rest) =>
      if letters.isEmpty then none
      else
        match rest with
        | ':' :: t2 => some (dropSpaces t2)
        | _ => none
  | _ => none

/-- Removes trailing tokens one at a time from a reversed character list. -/
def stripTrailingAux : Nat → List Char → List Char
  | 0, s => s
  | f + 1, s =>
    match revTokenMatch s with
    | some rest => stripTrailingAux f rest
    | none => s

/-- Follows the words of the spec for comparison with the source behaviour:
the description with TRAILING emoji-style shortcode tokens (a colon,
lowercase letters or hyphens, a colon, optionally surrounded by spaces)
stripped, leaving tokens elsewhere in the text alone. -/
def specStripTrailing (s : String) : String :=
  String.mk (stripTrailingAux s.length s.toList.reverse).reverse

/-- The `\w` character class of the live-search qualifier regexes (ASCII
word characters, no Unicode flag in the source). -/
def isWordChar (c : Char) : Bool :=
  ('a' ≤ c && c ≤ 'z') || ('A' ≤ c && c ≤ 'Z') || ('0' ≤ c && c ≤ '9') || c = '_'

/-- Decides that one of the tokens, followed by a colon and a word
character, sits at the head of the list (the part of `\b(tok|...):\w` to
the right of the boundary). -/
def qualifierAt (toks : List (List Char)) (s : List Char) : Bool :=
  toks.any (fun t =>
    isPrefixL (t ++ [':']) s &&
      match s.drop (t.length + 1) with
      | c :: _ => isWordChar c
      | [] => false)

/-- Scan loop of `RegExp.test` for `\b(tok|...):\w`: tries every position,
checking the word-boundary condition against the previous character. -/
def testQualFrom (toks : List (List Char)) : Option Char → List Char → Bool
  | _, [] => false
  | prev, c :: cs =>
    ((match prev with
      | none => true
      | some p => !isWordChar p) && qualifierAt toks (c :: cs)) ||
      testQualFrom toks (some c) cs

/-- Models `/\b(t1|t2|...):\w/.test(q)` for literal word tokens. -/
def testQual (toks : List String) (q : String) : Bool :=
  testQualFrom (toks.map String.toList) none q.toList

/-- The live-search query construction shared by the variants: the users
variant instantiates `scopeTok := "user"`, the org variant
`scopeTok := "org"`:
`/\b(is|author|user):\w/.test(q) ? (/\buser:\w/.test(q) ? q : ...) : ...`. -/
def buildScopedQuery (scopeTok account q : String) : String :=
  if testQual ["is", "author", scopeTok] q then
    if testQual [scopeTok] q then q
    else scopeTok ++ ":" ++ account ++ " " ++ q
  else
    scopeTok ++ ":" ++ account ++ " \"" ++ escapeQuotes q ++ "\""

/-- The uniform output shape of the connector; `modified` is the optional
unix timestamp. -/
structure Result where
  title : String
  url : String
  snippet : Option String
  modified : Option Int
deriving DecidableEq, Repr

/-- The repo filter predicate of `search`:
`!r.isArchived && !r.isFork && [r.description, r.name].some((s) => s && fuzzyIncludes(s, q))`.
JS truthiness makes `null` descriptions and empty strings fail the `s &&`
conjunct before the matcher runs. -/
def keepRepo (q : String) (r : Repo) : Bool :=
  !r.isArchived && !r.isFork &&
    ([r.description, some r.name].any (fun s =>
      match s with
      | some s => if s = "" then false else fuzzyIncludes s q
      | none => false))

/-- The repo sort comparator `(a, b) => (a.name > b.name ? 1 : -1)` as the
order `comparator a b ≤ 0`, i.e. not `a.name > b.name`. -/
def repoNameLe (a b : Repo) : Bool := !(decide (b.name < a.name))

/-- The repo-to-Result mapping of `search`: the snippet is
`description?.replace(/ *:[a-z-]+: */g, "") || undefined`, so a `null`
description or an empty replacement result yields no snippet. -/
def mkRepoResult (user : String) (r : Repo) : Result :=
  { snippet :=
      match r.description with
      | some d => if stripShortcodes d = "" then none else some (stripShortcodes d)
      | none => none,
    title := "Repo " ++ user ++ "/" ++ r.name,
    url := "https://github.com/" ++ user ++ "/" ++ r.name,
    modified := none }

/-- The collection branch of `search` for one account: filter, sort by
name, map to Results. -/
def repoResults (user q : String) (repos : List Repo) : List Result :=
  (jsSortBy repoNameLe (repos.filter (keepRepo q))).map (mkRepoResult user)

/-- The `Gist` interface of the gist-enabled variant. -/
structure Gist where
  description : Option String
  id : String
  updated_at : String
  html_url : String
deriving DecidableEq, Repr

/-- The gist filter `(g) => g.description && fuzzyIncludes(g.description, q)`. -/
def keepGist (q : String) (g : Gist) : Bool :=
  match g.description with
  | some d => if d = "" then false else fuzzyIncludes d q
  | none => false

/-- The gist sort comparator `(a, b) => (a.updated_at > b.updated_at ? 1 : -1)`
as the order `comparator a b ≤ 0`. -/
def gistUpdatedLe (a b : Gist) : Bool := !(decide (b.updated_at < a.updated_at))

/-- The gist-to-Result mapping: snippet `g.description || undefined`, title
`Gist \x7baccount\x7d/\x7bid\x7d`, url from the gist, and no `modified`
field even though the gist carries `updated_at`. -/
def mkGistResult (user : String) (g : Gist) : Result :=
  { snippet :=
      match g.description with
      | some d => if d = "" then none else some d
      | none => none,
    title := "Gist " ++ user ++ "/" ++ g.id,
    url := g.html_url,
    modified := none }

/-- The gist branch of the gist-enabled `search` for one account. -/
def gistResults (user q : String) (gists : List Gist) : List Result :=
  (jsSortBy gistUpdatedLe (gists.filter (keepGist q))).map (mkGistResult user)

/-- One item of the `/search/issues` live response. -/
structure IssueItem where
  body : Option String
  html_url : String
  number : Nat
  pull_request : Bool
  title : String
  updated_at : String
  user : String
deriving DecidableEq, Repr

/-- Attempts the regex `github\.com\/([^\/]+\/[^\/]+)` at the head of the
list, returning the capture group. -/
def ownerRepoAt (s : List Char) : Option (List Char) :=
  if isPrefixL ("github.com/".toList) s then
    match (s.drop ("github.com/".toList.length)).span (fun c => !(c = '/')) with
    | ([], _) => none
    | (seg1, rest1) =>
      match rest1 with
      | '/' :: rest2 =>
        match rest2.span (fun c => !(c = '/')) with
        | ([], _) => none
        | (seg2, _) => some (seg1 ++ '/' :: seg2)
      | _ => none
  else none

/-- Scan loop of `String.prototype.match` for the owner/repo capture. -/
def ownerRepoScan : List Char → Option (List Char)
  | [] => none
  | c :: cs =>
    match ownerRepoAt (c :: cs) with
    | some r => some r
    | none => ownerRepoScan cs

/-- Models `item.html_url.match(/github\.com\/([^\/]+\/[^\/]+)/)?.[1]`. -/
def ownerRepoOf (url : String) : Option String :=
  (ownerRepoScan url.toList).map String.mk

/-- The live-hit-to-Result mapping of `search`.  `md` stands for the
external `marked` renderer and `ts` for `getUnixTime` from `src/util`
(neither is part of the sources); a missing owner/repo capture interpolates
as the text `undefined` in the template literal. -/
def mkLiveResult (md : String → String) (ts : String → Int) (it : IssueItem) : Result :=
  { modified := some (ts it.updated_at),
    snippet :=
      match it.body with
      | some b => if b = "" then none else some ("<blockquote>" ++ md b ++ "</blockquote>")
      | none => none,
    title := (if it.pull_request then "PR" else "Issue") ++ " in " ++
      ((ownerRepoOf it.html_url).getD "undefined") ++ ": " ++ it.title,
    url := it.html_url }

/-- The live branch of `search` for one account. -/
def liveResults (md : String → String) (ts : String → Int)
    (items : List IssueItem) : List Result :=
  items.map (mkLiveResult md ts)

/-- The errors `search` can reject with: the explicit
`Error("Engine not initialized")`, or a rejection of the awaited
`getRepos()` promise that nothing catches. -/
inductive SearchErr
  | notInitialized
  | fetchRejected
deriving DecidableEq, Repr

/-- Models `repos.get(user)` on the producer's Map. -/
def lookupStore (store : List (String × List Repo)) (u : String) : Option (List Repo) :=
  (store.find? (fun p => p.1 == u)).map Prod.snd

/-- The per-account loop of the users-variant `search` (`github_users`
engine).  Oracles: `fetch i` is the outcome of the `await getRepos()` call
of iteration `i` (a rejection propagates, nothing catches it); `live u` is
the outcome of the account's `/search/issues` call (a rejection is caught
and contributes nothing).  Besides the result list, the list of accounts
for which the live-search step actually ran is returned, so that theorems
can talk about which requests were issued. -/
def searchUsersGo (md : String → String) (ts : String → Int)
    (fetch : Nat → Except Unit (List (String × List Repo)))
    (live : String → Except Unit (List IssueItem)) (q : String) :
    Nat → List String → List Result → List String →
      Except SearchErr (List Result × List String)
  | _, [], acc, called => .ok (acc, called)
  | i, u :: us, acc, called =>
    match fetch i with
    | .error _ => .error .fetchRejected
    | .ok store =>
      let userRepos := (lookupStore store u).getD []
      if userRepos.isEmpty then
        searchUsersGo md ts fetch live q (i + 1) us acc called
      else
        let rs := repoResults u q userRepos
        let ls :=
          match live u with
          | .ok items => liveResults md ts items
          | .error _ => []
        searchUsersGo md ts fetch live q (i + 1) us (acc ++ rs ++ ls) (called ++ [u])

/-- The users-variant `search` entry point: the not-initialized guard, then
the account loop.  `initialized` models `client && getRepos && users` being
set by `init`. -/
def searchUsers (initialized : Bool) (md : String → String) (ts : String → Int)
    (fetch : Nat → Except Unit (List (String × List Repo)))
    (live : String → Except Unit (List IssueItem))
    (users : List String) (q : String) :
    Except SearchErr (List Result × List String) :=
  if initialized then searchUsersGo md ts fetch live q 0 users [] []
  else .error .notInitialized

/-- Modelled from the spec: the events a `rateLimit`-wrapped producer
observes (`rateLimit` lives in `src/util`, which is not part of the
sources).  A `call` is one invocation of the wrapped function by a search;
a `settle` is the completion (successful or failed) of the in-flight
producer run. -/
inductive MemoEvent
  | call (caller : Nat)
  | settle (ok : Bool)
deriving DecidableEq, Repr

/-- Modelled from the spec: the single-flight memoizer state of §4.1 with
`maxConcurrent = 1` — at most one producer run in flight, overlapping
callers share it, and neither success nor failure is cached past
completion.  `assigned` logs which run each caller awaited;  `runsStarted`
counts underlying producer executions. -/
structure MemoState where
  inflight : Option Nat
  nextRun : Nat
  assigned : List (Nat × Nat)
  runsStarted : Nat
deriving DecidableEq, Repr

/-- Modelled from the spec: initial memoizer state. -/
def memoInit : MemoState := ⟨none, 0, [], 0⟩

/-- Modelled from the spec: one transition of the single-flight memoizer.
A call while a run is in flight joins that run; a call while idle starts a
fresh run; a settlement (either outcome) clears the in-flight slot, so a
failure is not cached and the next call starts a fresh attempt. -/
def memoStep (s : MemoState) : MemoEvent → MemoState
  | .call c =>
    match s.inflight with
    | some r => { s with assigned := s.assigned ++ [(c, r)] }
    | none =>
      { inflight := some s.nextRun, nextRun := s.nextRun + 1,
        assigned := s.assigned ++ [(c, s.nextRun)],
        runsStarted := s.runsStarted + 1 }
  | .settle _ => { s with inflight := none }

/-- Runs the memoizer over a whole event trace. -/
def runMemo (tr : List MemoEvent) : MemoState := tr.foldl memoStep memoInit

/-- A well-shaped page carrying one repository node and announcing a next
page at cursor `c1`. -/
def dupPage1 : UserResp :=
  ⟨some ⟨some ⟨some ⟨some [⟨some "d", false, false, "x"⟩], some ⟨some "c1", true⟩⟩⟩⟩⟩

/-- A well-shaped final page carrying a node value-equal to the one of
`dupPage1`. -/
def dupPage2 : UserResp :=
  ⟨some ⟨some ⟨some ⟨some [⟨some "d", false, false, "x"⟩], some ⟨none, false⟩⟩⟩⟩⟩

/-- A users-variant response that fails the shape guard (no `data`). -/
def badUserResp : UserResp := ⟨none⟩

theorem walkUser_chain_bad (good : List UserResp) :
    ∀ (cursor : Option String) (acc : List Repo) (bad : UserResp)
      (rest' : List UserResp),
      (∀ r ∈ good, r.conn.isSome = true ∧ respFlag r = true) →
      bad.conn = none →
      walkUser cursor acc (good ++ bad :: rest') =
        ⟨acc ++ (good.map respEdges).flatten,
         cursor :: good.map respEndCursor, true⟩ := by
  induction good with
  | nil =>
    intro cursor acc bad rest' _ hbad
    simpa using walkUser_cons_none hbad cursor acc rest'
  | cons g good ih =>
    intro cursor acc bad rest' hgood hbad
    obtain ⟨hc, hf⟩ := hgood g (List.mem_cons_self g good)
    obtain ⟨conn, hconn⟩ := Option.isSome_iff_exists.mp hc
    simp only [respFlag, hconn] at hf
    rw [List.cons_append, walkUser_cons_next hconn hf,
      ih conn.pageInfoD.endCursor (jsSetAddAll acc conn.edgesD) bad rest'
        (fun r hr => hgood r (List.mem_cons_of_mem g hr)) hbad]
    simp [jsSetAddAll, respEdges, respEndCursor, hconn]

/-- C1: the claim says the recorded set for an account is the
value-deduplicated union of all pages' items.  On the code it is not: a JS
`Set` of freshly parsed objects keeps value-equal duplicates, so two pages
carrying the same repository value record it twice. -/
theorem c1_dedup_counterexample :
    (walkUser none [] [dupPage1, dupPage2]).repos =
      [⟨some "d", false, false, "x"⟩, ⟨some "d", false, false, "x"⟩] ∧
    List.count (⟨some "d", false, false, "x"⟩ : Repo)
      (walkUser none [] [dupPage1, dupPage2]).repos = 2 ∧
    (walkUser none [] [dupPage1, dupPage2]).repos ≠
      specDedupUnion [dupPage1, dupPage2] := by
  refine ⟨by decide, by decide, by decide⟩

/-- C1 (amended): for every well-shaped pagination chain, the collection
the walk records for the account is the in-order concatenation of all
pages' items; each fetched node appears once as an element, and value-equal
duplicates are NOT collapsed (JS Set membership is reference identity and
every parsed node is fresh). -/
theorem c1_recorded_is_concatenation (resps : List UserResp)
    (h : isGoodChain resps = true) :
    (walkUser none [] resps).repos = (resps.map respEdges).flatten := by
  rw [walkUser_goodChain resps none [] h]
  simp

/-- C1 witness: the amended statement evaluated on the concrete two-page
chain. -/
theorem c1_recorded_is_concatenation_witness :
    isGoodChain [dupPage1, dupPage2] = true ∧
    (walkUser none [] [dupPage1, dupPage2]).repos =
      ([dupPage1, dupPage2].map respEdges).flatten :=
  ⟨by decide, c1_recorded_is_concatenation [dupPage1, dupPage2] (by decide)⟩

/-- C6: for every finite well-shaped response sequence whose hasNextPage
flags end in false, the walk issues exactly one request per response, the
first request carries no cursor, the cursor of request k+1 is the endCursor
of response k, and the walk terminates (completes by break). -/
theorem c6_pagination_protocol (resps : List UserResp)
    (h : isGoodChain resps = true) :
    (walkUser none [] resps).completed = true ∧
    (walkUser none [] resps).requests.length = resps.length ∧
    (walkUser none [] resps).requests =
      none :: resps.dropLast.map respEndCursor := by
  rw [walkUser_goodChain resps none [] h]
  cases resps with
  | nil => simp [isGoodChain] at h
  | cons r rs => simp [List.length_dropLast]

/-- C6 witness: the pagination protocol evaluated on the concrete two-page
chain, where the second request carries cursor `c1`. -/
theorem c6_pagination_protocol_witness :
    isGoodChain [dupPage1, dupPage2] = true ∧
    ((walkUser none [] [dupPage1, dupPage2]).completed = true ∧
     (walkUser none [] [dupPage1, dupPage2]).requests.length = 2 ∧
     (walkUser none [] [dupPage1, dupPage2]).requests =
       none :: [dupPage1, dupPage2].dropLast.map respEndCursor) :=
  ⟨by decide, c6_pagination_protocol [dupPage1, dupPage2] (by decide)⟩

/-- An org-variant response whose `data` and `organization` are present but
whose `repositories` field is missing. -/
def ghostOrgResp : OrgResp := ⟨some ⟨some ⟨none⟩⟩⟩

/-- C4: the claim says a missing `repositories` field makes the Paginator
log, record the set accumulated so far, raise nothing and continue with
the remaining accounts.  The org variant instead destructures
`data.organization.repositories` unguarded, so the walk throws and the
whole batch fetch rejects: nothing is recorded and the remaining account
is never processed. -/
theorem c4_org_missing_repositories_counterexample :
    walkOrg none [] [ghostOrgResp] = .error () ∧
    getReposOrgs [("ghost", [ghostOrgResp]), ("second", [])] = .error () :=
  ⟨rfl, rfl⟩

/-- C4 (amended): in the users variant the claimed tolerance holds — any
response failing the shape guard (missing data, user, or repositories)
stops that account's walk with whatever was accumulated from the preceding
well-shaped pages, raises nothing, and the batch records that set and
continues with the remaining accounts.  (In the org variant only missing
data or organization are tolerated; a present organization with missing
repositories rejects the whole batch, per the counterexample.) -/
theorem c4_users_malformed_tolerated :
    (∀ (u : String) (resps : List UserResp) (rest : List (String × List UserResp)),
      getReposUsers ((u, resps) :: rest) =
        (u, (walkUser none [] resps).repos) :: getReposUsers rest) ∧
    (∀ (good : List UserResp) (bad : UserResp) (rest' : List UserResp),
      (∀ r ∈ good, r.conn.isSome = true ∧ respFlag r = true) →
      bad.conn = none →
      walkUser none [] (good ++ bad :: rest') =
        ⟨(good.map respEdges).flatten, none :: good.map respEndCursor, true⟩) := by
  constructor
  · intro u resps rest
    simp [getReposUsers]
  · intro good bad rest' hgood hbad
    simpa using walkUser_chain_bad good none [] bad rest' hgood hbad

/-- C4 witness: one good page followed by a malformed response — the
account records exactly the good page's node, the batch raises nothing and
the next account is still processed. -/
theorem c4_users_malformed_tolerated_witness :
    getReposUsers [("u", [dupPage1, badUserResp]), ("v", [])] =
      [("u", (walkUser none [] [dupPage1, badUserResp]).repos), ("v", [])] ∧
    (∀ r ∈ [dupPage1], r.conn.isSome = true ∧ respFlag r = true) ∧
    badUserResp.conn = none ∧
    walkUser none [] ([dupPage1] ++ badUserResp :: []) =
      ⟨([dupPage1].map respEdges).flatten, none :: [dupPage1].map respEndCursor, true⟩ :=
  ⟨by rw [c4_users_malformed_tolerated.1]; rfl, by decide, by decide,
   c4_users_malformed_tolerated.2 [dupPage1] badUserResp [] (by decide) (by decide)⟩

theorem searchUsersGo_ok (md : String → String) (ts : String → Int)
    (fetch : Nat → Except Unit (List (String × List Repo)))
    (live : String → Except Unit (List IssueItem)) (q : String)
    (us : List String) :
    ∀ (i : Nat) (acc : List Result) (called : List String),
      (∀ j, ∃ st, fetch j = .ok st) →
      ∃ rs cl, searchUsersGo md ts fetch live q i us acc called = .ok (rs, cl) := by
  induction us with
  | nil => intro i acc called _; exact ⟨acc, called, rfl⟩
  | cons u us ih =>
    intro i acc called hfetch
    obtain ⟨st, hst⟩ := hfetch i
    simp only [searchUsersGo, hst]
    by_cases hemp : ((lookupStore st u).getD []).isEmpty
    · simpa [hemp] using ih (i + 1) acc called hfetch
    · simpa [hemp] using
        ih (i + 1)
          (acc ++ repoResults u q ((lookupStore st u).getD []) ++
            match live u with
            | .ok items => liveResults md ts items
            | .error _ => []) (called ++ [u]) hfetch

/-- C2: the claim says every per-account and per-source failure is caught
inside `search`.  The awaited `getRepos()` call is not inside any
try/catch, so a rejected collection page fetch rejects the whole `search`
call with an error that is not the not-initialized error. -/
theorem c2_fetch_rejection_escapes :
    searchUsers true (fun s => s) (fun _ => (0 : Int)) (fun _ => .error ())
      (fun _ => .ok []) ["alice"] "q" = .error .fetchRejected ∧
    SearchErr.fetchRejected ≠ SearchErr.notInitialized :=
  ⟨rfl, by decide⟩

/-- C2 (amended): calling `search` before `init` fails with the
not-initialized error; after `init`, live-search failures are caught per
account and `search` still resolves, but a rejection of the awaited
collection fetch escapes `search` — only when every collection fetch
during the call succeeds is `search` guaranteed to resolve. -/
theorem c2_error_isolation :
    (∀ (md : String → String) (ts : String → Int) fetch live
        (users : List String) (q : String),
      searchUsers false md ts fetch live users q = .error .notInitialized) ∧
    (∀ (md : String → String) (ts : String → Int) fetch live
        (users : List String) (q : String),
      (∀ j, ∃ st, fetch j = .ok st) →
      ∃ rs cl, searchUsers true md ts fetch live users q = .ok (rs, cl)) := by
  constructor
  · intro md ts fetch live users q
    simp [searchUsers]
  · intro md ts fetch live users q hfetch
    simpa [searchUsers] using
      searchUsersGo_ok md ts fetch live q users 0 [] [] hfetch

/-- C2 witness: with a collection store that resolves and a live search
that rejects for every account, `search` still resolves. -/
theorem c2_error_isolation_witness :
    (∀ j : Nat,
      ∃ st, (fun _ : Nat =>
        (Except.ok [("alice", [(⟨some "d", false, false, "x"⟩ : Repo)])] :
          Except Unit (List (String × List Repo)))) j = .ok st) ∧
    ∃ rs cl,
      searchUsers true (fun s => s) (fun _ => (0 : Int))
        (fun _ => .ok [("alice", [⟨some "d", false, false, "x"⟩])])
        (fun _ => .error ()) ["alice"] "d" = .ok (rs, cl) :=
  ⟨fun _ => ⟨_, rfl⟩,
   c2_error_isolation.2 (fun s => s) (fun _ => (0 : Int))
     (fun _ => .ok [("alice", [⟨some "d", false, false, "x"⟩])])
     (fun _ => .error ()) ["alice"] "d" (fun _ => ⟨_, rfl⟩)⟩

theorem searchUsersGo_called (md : String → String) (ts : String → Int)
    (store : List (String × List Repo))
    (live : String → Except Unit (List IssueItem)) (q : String)
    (us : List String) :
    ∀ (i : Nat) (acc : List Result) (called : List String),
      ∃ rs, searchUsersGo md ts (fun _ => .ok store) live q i us acc called =
        .ok (rs, called ++ us.filter (fun u => !((lookupStore store u).getD []).isEmpty)) := by
  induction us with
  | nil => intro i acc called; exact ⟨acc, by simp [searchUsersGo]⟩
  | cons u us ih =>
    intro i acc called
    by_cases hemp : ((lookupStore store u).getD []).isEmpty
    · obtain ⟨rs, hrs⟩ := ih (i + 1) acc called
      exact ⟨rs, by simp [searchUsersGo, hemp, hrs]⟩
    · obtain ⟨rs, hrs⟩ := ih (i + 1)
        (acc ++ repoResults u q ((lookupStore store u).getD []) ++
          match live u with
          | .ok items => liveResults md ts items
          | .error _ => []) (called ++ [u])
      refine ⟨rs, ?_⟩
      simp only [searchUsersGo, hemp]
      simp only [Bool.false_eq_true, if_false]
      rw [hrs]
      simp [hemp]

/-- C3: the claim says an account with an empty cached collection still
gets the live issue/PR search.  In the users variant an empty collection
makes the loop `continue`, skipping the live search: here the live oracle
holds a hit for `alice`, yet `search` returns no results and the
live-search step ran for no account. -/
theorem c3_empty_collection_skips_live :
    searchUsers true (fun s => s) (fun _ => (0 : Int))
      (fun _ => .ok [("alice", [])])
      (fun _ => .ok [⟨none, "https://github.com/alice/r/issues/1", 1, false,
        "t", "2020", "alice"⟩]) ["alice"] "q" = .ok ([], []) ∧
    liveResults (fun s => s) (fun _ => (0 : Int))
      [⟨none, "https://github.com/alice/r/issues/1", 1, false,
        "t", "2020", "alice"⟩] ≠ [] :=
  ⟨rfl, by decide⟩

/-- C3 (amended): in the users variant, the live-search step runs for an
account if and only if the account's cached collection set is nonempty; an
account with an empty or missing set is skipped entirely, contributing
neither collection nor live results. -/
theorem c3_live_called_iff_nonempty (md : String → String) (ts : String → Int)
    (store : List (String × List Repo))
    (live : String → Except Unit (List IssueItem))
    (users : List String) (q : String) (rs : List Result) (called : List String)
    (h : searchUsers true md ts (fun _ => .ok store) live users q = .ok (rs, called)) :
    ∀ u, u ∈ called ↔ u ∈ users ∧ ((lookupStore store u).getD []).isEmpty = false := by
  obtain ⟨rs', hrs'⟩ := searchUsersGo_called md ts store live q users 0 [] []
  have h' : searchUsersGo md ts (fun _ => .ok store) live q 0 users [] [] =
      .ok (rs, called) := by
    simpa [searchUsers] using h
  rw [hrs'] at h'
  have hpair := Except.ok.inj h'
  have hcalled : called =
      users.filter (fun u => !((lookupStore store u).getD []).isEmpty) := by
    have h2 := congrArg Prod.snd hpair
    simpa using h2.symm
  intro u
  rw [hcalled, List.mem_filter]
  simp

/-- C3 witness: with accounts `alice` (empty set) and `bob` (nonempty set),
the live-search step ran exactly for `bob`. -/
theorem c3_live_called_iff_nonempty_witness :
    searchUsers true (fun s => s) (fun _ => (0 : Int))
      (fun _ => .ok [("alice", []), ("bob", [⟨some "d", false, false, "x"⟩])])
      (fun _ => .ok []) ["alice", "bob"] "d" =
      .ok ([⟨"Repo bob/x", "https://github.com/bob/x", some "d", none⟩], ["bob"]) ∧
    ("alice" ∈ ["bob"] ↔ "alice" ∈ ["alice", "bob"] ∧
      ((lookupStore [("alice", []), ("bob", [⟨some "d", false, false, "x"⟩])] "alice").getD []).isEmpty = false) :=
  ⟨by rfl,
   c3_live_called_iff_nonempty (fun s => s) (fun _ => (0 : Int))
     [("alice", []), ("bob", [⟨some "d", false, false, "x"⟩])] (fun _ => .ok [])
     ["alice", "bob"] "d" [⟨"Repo bob/x", "https://github.com/bob/x", some "d", none⟩]
     ["bob"] (by rfl) "alice"⟩

theorem runMemo_append_one (tr : List MemoEvent) (e : MemoEvent) :
    runMemo (tr ++ [e]) = memoStep (runMemo tr) e := by
  simp [runMemo, List.foldl_append]

/-- Invariant of the memoizer: every run a caller was ever assigned has an
id below `nextRun` (so a freshly started run differs from all of them). -/
def MemoInv (s : MemoState) : Prop :=
  (∀ p ∈ s.assigned, p.2 < s.nextRun) ∧
  (∀ r, s.inflight = some r → r < s.nextRun)

theorem memoStep_inv (s : MemoState) (e : MemoEvent) (h : MemoInv s) :
    MemoInv (memoStep s e) := by
  obtain ⟨ha, hi⟩ := h
  cases e with
  | call c =>
    cases hin : s.inflight with
    | some r =>
      refine ⟨?_, ?_⟩
      · intro p hp
        simp only [memoStep, hin] at hp ⊢
        rcases List.mem_append.mp hp with hp | hp
        · exact ha p hp
        · simp at hp
          subst hp
          exact hi r hin
      · intro r' hr'
        simp only [memoStep, hin, Option.some.injEq] at hr' ⊢
        exact hr' ▸ hi r hin
    | none =>
      refine ⟨?_, ?_⟩
      · intro p hp
        simp only [memoStep, hin] at hp ⊢
        rcases List.mem_append.mp hp with hp | hp
        · exact Nat.lt_succ_of_lt (ha p hp)
        · simp at hp
          subst hp
          exact Nat.lt_succ_self _
      · intro r' hr'
        simp only [memoStep, hin, Option.some.injEq] at hr'
        simp [memoStep, hin, ← hr']
  | settle b =>
    exact ⟨fun p hp => ha p hp, fun r hr => by simp [memoStep] at hr⟩

theorem foldl_memoStep_inv (tr : List MemoEvent) :
    ∀ s : MemoState, MemoInv s → MemoInv (tr.foldl memoStep s) := by
  induction tr with
  | nil => intro s h; exact h
  | cons e tr ih => intro s h; exact ih (memoStep s e) (memoStep_inv s e h)

theorem runMemo_inv (tr : List MemoEvent) : MemoInv (runMemo tr) :=
  foldl_memoStep_inv tr memoInit ⟨by simp [memoInit], by simp [memoInit]⟩

/-- C5 (modelled from the spec, since `rateLimit` lives in `src/util`): the
single-flight memoizer of §4.1 with `maxConcurrent = 1`.  A call arriving
while a run is in flight is assigned that same run and starts nothing new
(the state changes only by logging the shared assignment); a call arriving
while idle starts exactly one new run, whose id differs from every run any
earlier caller awaited; a settlement — success or failure alike — clears
the in-flight slot, so a failure is not cached and the next call starts a
fresh attempt. -/
theorem c5_single_flight :
    (∀ (tr : List MemoEvent) (c r : Nat),
      (runMemo tr).inflight = some r →
      runMemo (tr ++ [MemoEvent.call c]) =
        { runMemo tr with assigned := (runMemo tr).assigned ++ [(c, r)] }) ∧
    (∀ (tr : List MemoEvent) (c : Nat),
      (runMemo tr).inflight = none →
      runMemo (tr ++ [MemoEvent.call c]) =
        ⟨some (runMemo tr).nextRun, (runMemo tr).nextRun + 1,
         (runMemo tr).assigned ++ [(c, (runMemo tr).nextRun)],
         (runMemo tr).runsStarted + 1⟩ ∧
      ∀ p ∈ (runMemo tr).assigned, p.2 ≠ (runMemo tr).nextRun) ∧
    (∀ (tr : List MemoEvent) (b : Bool),
      (runMemo (tr ++ [MemoEvent.settle b])).inflight = none) := by
  refine ⟨?_, ?_, ?_⟩
  · intro tr c r hin
    rw [runMemo_append_one]
    simp [memoStep, hin]
  · intro tr c hin
    constructor
    · rw [runMemo_append_one]
      simp [memoStep, hin]
    · intro p hp
      exact Nat.ne_of_lt ((runMemo_inv tr).1 p hp)
  · intro tr b
    rw [runMemo_append_one]
    simp [memoStep]

/-- C5 witness: a second caller arriving while run 0 is in flight shares
run 0; after a failed settlement the slot is clear and the next caller
starts the fresh run 1. -/
theorem c5_single_flight_witness :
    ((runMemo [MemoEvent.call 0]).inflight = some 0 ∧
      runMemo ([MemoEvent.call 0] ++ [MemoEvent.call 1]) =
        { runMemo [MemoEvent.call 0] with
            assigned := (runMemo [MemoEvent.call 0]).assigned ++ [(1, 0)] }) ∧
    ((runMemo [MemoEvent.call 0, MemoEvent.settle false]).inflight = none ∧
      (runMemo ([MemoEvent.call 0, MemoEvent.settle false] ++ [MemoEvent.call 2]) =
          ⟨some (runMemo [MemoEvent.call 0, MemoEvent.settle false]).nextRun,
           (runMemo [MemoEvent.call 0, MemoEvent.settle false]).nextRun + 1,
           (runMemo [MemoEvent.call 0, MemoEvent.settle false]).assigned ++
             [(2, (runMemo [MemoEvent.call 0, MemoEvent.settle false]).nextRun)],
           (runMemo [MemoEvent.call 0, MemoEvent.settle false]).runsStarted + 1⟩ ∧
        ∀ p ∈ (runMemo [MemoEvent.call 0, MemoEvent.settle false]).assigned,
          p.2 ≠ (runMemo [MemoEvent.call 0, MemoEvent.settle false]).nextRun)) ∧
    (runMemo ([MemoEvent.call 0] ++ [MemoEvent.settle true])).inflight = none :=
  ⟨⟨by decide, c5_single_flight.1 [MemoEvent.call 0] 1 0 (by decide)⟩,
   ⟨by decide, c5_single_flight.2.1 [MemoEvent.call 0, MemoEvent.settle false] 2 (by decide)⟩,
   c5_single_flight.2.2 [MemoEvent.call 0] true⟩

/-- The boundary test of `\b` as the scan performs it, on the character
preceding the candidate position (none at the start of the string). -/
def boundaryB : Option Char → Bool
  | none => true
  | some p => !isWordChar p

/-- The character immediately preceding the candidate position, when the
string is split as `pre ++ rest` and `prev` precedes the whole string: the
last character of `pre`, or `prev` when `pre` is empty. -/
def prevCharOf (prev : Option Char) : List Char → Option Char
  | [] => prev
  | c :: pre' => prevCharOf (some c) pre'

/-- Declarative word-boundary condition: the preceding character, if any,
is not a word character. -/
def BoundaryOk : Option Char → Prop
  | none => True
  | some p => isWordChar p = false

theorem boundaryB_iff (prev : Option Char) :
    boundaryB prev = true ↔ BoundaryOk prev := by
  cases prev <;> simp [boundaryB, BoundaryOk]

theorem prevCharOf_cons (prev : Option Char) (c : Char) (pre' : List Char) :
    prevCharOf prev (c :: pre') = prevCharOf (some c) pre' := rfl

theorem isPrefixL_iff [DecidableEq α] (a : List α) :
    ∀ b, isPrefixL a b = true ↔ ∃ r, b = a ++ r := by
  induction a with
  | nil => intro b; simp [isPrefixL]
  | cons x as ih =>
    intro b
    cases b with
    | nil =>
      simp only [isPrefixL]
      constructor
      · intro h; simp at h
      · rintro ⟨r, hr⟩; simp at hr
    | cons y bs =>
      simp only [isPrefixL, Bool.and_eq_true, decide_eq_true_eq]
      constructor
      · rintro ⟨rfl, h⟩
        obtain ⟨r, rfl⟩ := (ih bs).mp h
        exact ⟨r, rfl⟩
      · rintro ⟨r, hr⟩
        rw [List.cons_append] at hr
        injection hr with h1 h2
        exact ⟨h1.symm, (ih bs).mpr ⟨r, h2⟩⟩

theorem qualifierAt_one_iff (t s : List Char) :
    (isPrefixL (t ++ [':']) s &&
      match s.drop (t.length + 1) with
      | c :: _ => isWordChar c
      | [] => false) = true ↔
    ∃ c post, s = t ++ ':' :: c :: post ∧ isWordChar c = true := by
  constructor
  · intro h
    rw [Bool.and_eq_true] at h
    obtain ⟨h1, h2⟩ := h
    obtain ⟨r, rfl⟩ := (isPrefixL_iff _ _).mp h1
    have hlen : (t ++ [':']).length = t.length + 1 := by simp
    rw [← hlen, List.drop_left] at h2
    cases r with
    | nil => simp at h2
    | cons c post =>
      exact ⟨c, post, by simp, h2⟩
  · rintro ⟨c, post, rfl, hw⟩
    have hshape : t ++ ':' :: c :: post = (t ++ [':']) ++ c :: post := by simp
    rw [hshape, Bool.and_eq_true]
    refine ⟨(isPrefixL_iff _ _).mpr ⟨c :: post, rfl⟩, ?_⟩
    have hlen : (t ++ [':']).length = t.length + 1 := by simp
    rw [← hlen, List.drop_left]
    exact hw

theorem qualifierAt_nil (toks : List (List Char)) :
    qualifierAt toks [] = false := by
  simp only [qualifierAt, List.any_eq_false]
  intro t _
  rcases t with _ | ⟨x, xs⟩ <;> simp [isPrefixL]

theorem qualifierAt_iff (toks : List (List Char)) (s : List Char) :
    qualifierAt toks s = true ↔
      ∃ t ∈ toks, ∃ c post, s = t ++ ':' :: c :: post ∧ isWordChar c = true := by
  simp only [qualifierAt, List.any_eq_true]
  constructor
  · rintro ⟨t, ht, h⟩
    exact ⟨t, ht, (qualifierAt_one_iff t s).mp h⟩
  · rintro ⟨t, ht, h⟩
    exact ⟨t, ht, (qualifierAt_one_iff t s).mpr h⟩

theorem testQualFrom_iff (toks : List (List Char)) (s : List Char) :
    ∀ prev, testQualFrom toks prev s = true ↔
      ∃ pre rest, s = pre ++ rest ∧ BoundaryOk (prevCharOf prev pre) ∧
        qualifierAt toks rest = true := by
  induction s with
  | nil =>
    intro prev
    constructor
    · intro h; simp [testQualFrom] at h
    · rintro ⟨pre, rest, hsplit, _, hq⟩
      obtain ⟨rfl, rfl⟩ := List.append_eq_nil.mp hsplit.symm
      rw [qualifierAt_nil] at hq
      exact absurd hq (by simp)
  | cons c cs ih =>
    intro prev
    simp only [testQualFrom, Bool.or_eq_true, Bool.and_eq_true]
    constructor
    · rintro (⟨hb, hq⟩ | h)
      · refine ⟨[], c :: cs, rfl, ?_, hq⟩
        have hB : boundaryB prev = true := by
          cases prev with
          | none => rfl
          | some p => simpa [boundaryB] using hb
        simpa only [prevCharOf] using (boundaryB_iff prev).mp hB
      · obtain ⟨pre, rest, hsplit, hbnd, hq⟩ := (ih (some c)).mp h
        exact ⟨c :: pre, rest, by simp [hsplit], by rwa [prevCharOf_cons], hq⟩
    · rintro ⟨pre, rest, hsplit, hbnd, hq⟩
      cases pre with
      | nil =>
        left
        simp only [List.nil_append] at hsplit
        subst hsplit
        refine ⟨?_, hq⟩
        have hB : boundaryB prev = true :=
          (boundaryB_iff prev).mpr (by simpa only [prevCharOf] using hbnd)
        cases prev with
        | none => rfl
        | some p => simpa [boundaryB] using hB
      | cons p pre' =>
        right
        rw [List.cons_append] at hsplit
        injection hsplit with h1 h2
        subst h1
        refine (ih (some c)).mpr ⟨pre', rest, h2, ?_, hq⟩
        rwa [prevCharOf_cons] at hbnd

/-- Declarative reading of the qualifier regex `\b(t1|t2|...):\w`: the
query decomposes around an occurrence of a token followed by a colon and a
word character, with a word boundary before the token. -/
def HasQualifier (toks : List String) (q : String) : Prop :=
  ∃ pre t c post, t ∈ toks ∧
    q.toList = pre ++ (t.toList ++ ':' :: c :: post) ∧
    isWordChar c = true ∧ BoundaryOk (prevCharOf none pre)

theorem testQual_iff (toks : List String) (q : String) :
    testQual toks q = true ↔ HasQualifier toks q := by
  unfold testQual HasQualifier
  rw [testQualFrom_iff]
  constructor
  · rintro ⟨pre, rest, hsplit, hbnd, hq⟩
    obtain ⟨tl, htl, cch, post, hrest, hw⟩ := (qualifierAt_iff _ _).mp hq
    obtain ⟨t, ht, rfl⟩ := List.mem_map.mp htl
    exact ⟨pre, t, cch, post, ht, by rw [hsplit, hrest], hw, hbnd⟩
  · rintro ⟨pre, t, cch, post, ht, hsplit, hw, hbnd⟩
    exact ⟨pre, t.toList ++ ':' :: cch :: post, hsplit, hbnd,
      (qualifierAt_iff _ _).mpr
        ⟨t.toList, List.mem_map_of_mem _ ht, cch, post, rfl, hw⟩⟩

/-- C7: the scoped live-search query.  The regex tests of the source are
characterized declaratively (a qualifier token occurrence with a word
boundary before it and a word character after the colon), and the three
construction branches follow the claim: pass-through when the query has a
qualifier and the scope qualifier; scope prefix when it has a qualifier but
not the scope; otherwise scope prefix plus the raw query wrapped in double
quotes with embedded quotes escaped first. -/
theorem c7_scoped_query (scopeTok account q : String) :
    (testQual ["is", "author", scopeTok] q = true ↔
      HasQualifier ["is", "author", scopeTok] q) ∧
    (testQual [scopeTok] q = true ↔ HasQualifier [scopeTok] q) ∧
    (HasQualifier ["is", "author", scopeTok] q → HasQualifier [scopeTok] q →
      buildScopedQuery scopeTok account q = q) ∧
    (HasQualifier ["is", "author", scopeTok] q → ¬HasQualifier [scopeTok] q →
      buildScopedQuery scopeTok account q =
        scopeTok ++ ":" ++ account ++ " " ++ q) ∧
    (¬HasQualifier ["is", "author", scopeTok] q →
      buildScopedQuery scopeTok account q =
        scopeTok ++ ":" ++ account ++ " \"" ++ escapeQuotes q ++ "\"") := by
  refine ⟨testQual_iff _ q, testQual_iff _ q, ?_, ?_, ?_⟩
  · intro h1 h2
    rw [buildScopedQuery, if_pos ((testQual_iff _ q).mpr h1),
      if_pos ((testQual_iff _ q).mpr h2)]
  · intro h1 h2
    rw [buildScopedQuery, if_pos ((testQual_iff _ q).mpr h1), if_neg ?_]
    intro hc
    exact h2 ((testQual_iff _ q).mp hc)
  · intro h1
    rw [buildScopedQuery, if_neg ?_]
    intro hc
    exact h1 ((testQual_iff _ q).mp hc)

/-- C7 witness: the three branches at concrete inputs — a query already
scoped by `user:` passes through; a qualified but unscoped query gets the
scope prefix; an unqualified query gets the scope prefix and quoting. -/
theorem c7_scoped_query_witness :
    buildScopedQuery "user" "bob" "user:bob foo" = "user:bob foo" ∧
    buildScopedQuery "user" "bob" "is:open crash" =
      "user" ++ ":" ++ "bob" ++ " " ++ "is:open crash" ∧
    buildScopedQuery "user" "bob" "fix crash" =
      "user" ++ ":" ++ "bob" ++ " \"" ++ escapeQuotes "fix crash" ++ "\"" :=
  ⟨(c7_scoped_query "user" "bob" "user:bob foo").2.2.1
      ((c7_scoped_query "user" "bob" "user:bob foo").1.mp (by decide))
      ((c7_scoped_query "user" "bob" "user:bob foo").2.1.mp (by decide)),
   (c7_scoped_query "user" "bob" "is:open crash").2.2.2.1
      ((c7_scoped_query "user" "bob" "is:open crash").1.mp (by decide))
      (fun h => absurd ((c7_scoped_query "user" "bob" "is:open crash").2.1.mpr h)
        (by decide)),
   (c7_scoped_query "user" "bob" "fix crash").2.2.2.2
      (fun h => absurd ((c7_scoped_query "user" "bob" "fix crash").1.mpr h)
        (by decide))⟩

theorem repoNameLe_total (a b : Repo) :
    repoNameLe a b = true ∨ repoNameLe b a = true := by
  simp only [repoNameLe, Bool.not_eq_true', decide_eq_false_iff_not, not_lt]
  exact (le_total b.name a.name).symm

theorem repoNameLe_trans (a b c : Repo) (h1 : repoNameLe a b = true)
    (h2 : repoNameLe b c = true) : repoNameLe a c = true := by
  simp only [repoNameLe, Bool.not_eq_true', decide_eq_false_iff_not, not_lt] at h1 h2 ⊢
  exact le_trans h1 h2

/-- The filter condition stated declaratively, as the claim reads it: not
archived, not forked, and the name or the (present, nonempty) description
matches the query. -/
def specKeepRepo (q : String) (r : Repo) : Prop :=
  r.isArchived = false ∧ r.isFork = false ∧
    ((r.name ≠ "" ∧ fuzzyIncludes r.name q = true) ∨
     (∃ d, r.description = some d ∧ d ≠ "" ∧ fuzzyIncludes d q = true))

theorem keepRepo_iff (q : String) (r : Repo) :
    keepRepo q r = true ↔ specKeepRepo q r := by
  obtain ⟨d, arch, fork, name⟩ := r
  simp only [keepRepo, specKeepRepo, List.any_cons, List.any_nil, Bool.or_false,
    Bool.and_eq_true, Bool.not_eq_true']
  cases d with
  | none =>
    by_cases hn : name = "" <;> simp [hn] <;> tauto
  | some d =>
    by_cases hd : d = "" <;> by_cases hn : name = "" <;> simp [hd, hn] <;> tauto

/-- C8: for every cached collection and query, the collection results are
exactly the repos that are neither archived nor forked and whose name or
description matches (the filter predicate of the source is equivalent to
the declarative one, so archived/forked repos are excluded even when they
match), ordered ascending by name, each mapped through `mkRepoResult` to
the titled Result with the account/name URL. -/
theorem c8_collection_results (user q : String) (repos : List Repo) :
    (∀ r, keepRepo q r = true ↔ specKeepRepo q r) ∧
    ∃ l : List Repo,
      repoResults user q repos = l.map (mkRepoResult user) ∧
      l.Perm (repos.filter (keepRepo q)) ∧
      l.Pairwise (fun a b => a.name ≤ b.name) := by
  refine ⟨fun r => keepRepo_iff q r,
    jsSortBy repoNameLe (repos.filter (keepRepo q)), rfl,
    jsSortBy_perm _ _, ?_⟩
  refine (jsSortBy_pairwise repoNameLe repoNameLe_total
    (fun a b c h1 h2 => repoNameLe_trans a b c h1 h2)
    (repos.filter (keepRepo q))).imp ?_
  intro a b h
  simpa [repoNameLe, not_lt] using h

theorem mem_dropSpaces (x : Char) : ∀ s : List Char, x ∈ dropSpaces s → x ∈ s := by
  intro s
  induction s with
  | nil => intro h; simp [dropSpaces] at h
  | cons c cs ih =>
    intro h
    by_cases hc : c = ' '
    · subst hc
      rw [show dropSpaces (' ' :: cs) = dropSpaces cs from rfl] at h
      exact List.mem_cons_of_mem _ (ih h)
    · have hEq : dropSpaces (c :: cs) = c :: cs := by
        unfold dropSpaces
        split
        · next cs2 heq =>
          have h2 := congrArg (fun l => l.headD '!') heq
          simp at h2
          exact absurd h2 hc
        · rfl
      rwa [hEq] at h

theorem shortcodeMatch_none_of_no_colon (s : List Char)
    (h : ∀ c ∈ s, c ≠ ':') : shortcodeMatch s = none := by
  cases hds : dropSpaces s with
  | nil => unfold shortcodeMatch; rw [hds]
  | cons c t =>
    have hc : c ≠ ':' :=
      h c (mem_dropSpaces c s (by rw [hds]; exact List.mem_cons_self c t))
    unfold shortcodeMatch
    rw [hds]
    split
    · next t' heq =>
      have h2 := congrArg (fun l => l.headD '!') heq
      simp at h2
      exact absurd h2 hc
    · rfl

theorem stripAux_no_colon : ∀ (f : Nat) (s : List Char),
    (∀ c ∈ s, c ≠ ':') → s.length ≤ f → stripShortcodesAux f s = s := by
  intro f
  induction f with
  | zero =>
    intro s h hlen
    have : s = [] := List.length_eq_zero.mp (Nat.le_zero.mp hlen)
    subst this
    rfl
  | succ f ih =>
    intro s h hlen
    cases s with
    | nil => rfl
    | cons c cs =>
      rw [show stripShortcodesAux (f + 1) (c :: cs) =
          (match shortcodeMatch (c :: cs) with
           | some rest => stripShortcodesAux f rest
           | none => c :: stripShortcodesAux f cs) from rfl,
        shortcodeMatch_none_of_no_colon (c :: cs) h]
      rw [ih cs (fun x hx => h x (List.mem_cons_of_mem c hx))
        (Nat.le_of_succ_le_succ hlen)]

theorem stripShortcodes_no_colon (s : String) (h : ∀ c ∈ s.toList, c ≠ ':') :
    stripShortcodes s = s := by
  unfold stripShortcodes
  rw [stripAux_no_colon s.length s.toList h (le_of_eq rfl)]
  cases s
  rfl

/-- C9: the claim says only TRAILING shortcode tokens are stripped and a
non-null description always yields the stripped description as snippet.
The regex replacement is global: a shortcode in the middle of the
description is stripped too, and a description that strips to the empty
string yields no snippet at all (`|| undefined`). -/
theorem c9_global_strip_counterexample :
    (mkRepoResult "alice" ⟨some "a :x: b", false, false, "r"⟩).snippet = some "ab" ∧
    specStripTrailing "a :x: b" = "a :x: b" ∧
    some "ab" ≠ some (specStripTrailing "a :x: b") ∧
    (mkRepoResult "alice" ⟨some " :tada: ", false, false, "r"⟩).snippet = none :=
  ⟨by decide, by decide, by decide, by decide⟩

/-- C9 (amended): a null description yields no snippet; a non-null
description yields the description with ALL emoji-shortcode tokens (with
surrounding spaces) removed wherever they occur, except that an empty
removal result also yields no snippet; a description containing no colon
is passed through unchanged. -/
theorem c9_snippet_characterization (user : String) (r : Repo) :
    (r.description = none → (mkRepoResult user r).snippet = none) ∧
    (∀ d, r.description = some d →
      (mkRepoResult user r).snippet =
        (if stripShortcodes d = "" then none else some (stripShortcodes d))) ∧
    (∀ d : String, (∀ c ∈ d.toList, c ≠ ':') → stripShortcodes d = d) := by
  refine ⟨?_, ?_, fun d h => stripShortcodes_no_colon d h⟩
  · intro h
    simp [mkRepoResult, h]
  · intro d h
    simp [mkRepoResult, h]

/-- C9 witness: the characterization evaluated at a null description, a
description with a trailing shortcode, and a colon-free description. -/
theorem c9_snippet_characterization_witness :
    (mkRepoResult "alice" ⟨none, false, false, "r"⟩).snippet = none ∧
    (mkRepoResult "alice" ⟨some "hello :tada:", false, false, "r"⟩).snippet =
      (if stripShortcodes "hello :tada:" = "" then none
       else some (stripShortcodes "hello :tada:")) ∧
    stripShortcodes "plain words" = "plain words" :=
  ⟨(c9_snippet_characterization "alice" ⟨none, false, false, "r"⟩).1 rfl,
   (c9_snippet_characterization "alice" ⟨some "hello :tada:", false, false, "r"⟩).2.1
     "hello :tada:" rfl,
   (c9_snippet_characterization "alice" ⟨none, false, false, "r"⟩).2.2
     "plain words" (by decide)⟩

/-- The post-condition of C10 on one output element: either no `modified`
timestamp (repo and gist results), or the timestamp of some live hit. -/
def ModifiedShape (live : String → Except Unit (List IssueItem))
    (ts : String → Int) (x : Result) : Prop :=
  x.modified = none ∨
    ∃ u items it, live u = .ok items ∧ it ∈ items ∧
      x.modified = some (ts it.updated_at)

theorem searchUsersGo_modified (md : String → String) (ts : String → Int)
    (fetch : Nat → Except Unit (List (String × List Repo)))
    (live : String → Except Unit (List IssueItem)) (q : String)
    (us : List String) :
    ∀ (i : Nat) (acc : List Result) (called : List String)
      (rs : List Result) (cl : List String),
      (∀ x ∈ acc, ModifiedShape live ts x) →
      searchUsersGo md ts fetch live q i us acc called = .ok (rs, cl) →
      ∀ x ∈ rs, ModifiedShape live ts x := by
  induction us with
  | nil =>
    intro i acc called rs cl hacc h
    simp only [searchUsersGo] at h
    obtain ⟨h1, _⟩ := Prod.mk.injEq .. ▸ Except.ok.inj h
    exact h1 ▸ hacc
  | cons u us ih =>
    intro i acc called rs cl hacc h
    cases hf : fetch i with
    | error e => simp [searchUsersGo, hf] at h
    | ok store =>
      simp only [searchUsersGo, hf] at h
      by_cases hemp : ((lookupStore store u).getD []).isEmpty
      · rw [if_pos hemp] at h
        exact ih (i + 1) acc called rs cl hacc h
      · rw [if_neg hemp] at h
        refine ih (i + 1) _ (called ++ [u]) rs cl ?_ h
        intro x hx
        rcases List.mem_append.mp hx with hx | hx
        · rcases List.mem_append.mp hx with hx | hx
          · exact hacc x hx
          · left
            obtain ⟨r, _, rfl⟩ := List.mem_map.mp
              (by simpa [repoResults] using hx)
            rfl
        · cases hlv : live u with
          | ok items =>
            rw [hlv] at hx
            obtain ⟨it, hit, rfl⟩ := List.mem_map.mp
              (by simpa [liveResults] using hx)
            exact Or.inr ⟨u, items, it, hlv, hit, rfl⟩
          | error e =>
            rw [hlv] at hx
            simp at hx

/-- C10: repo results and gist results carry no `modified` timestamp — the
gist mapping drops the upstream `updated_at` — while every live issue/PR
result carries `modified` equal to the converted `updated_at` of its hit;
consequently every element of a resolved `search` output either has no
`modified` or owes it to a live hit. -/
theorem c10_modified_only_live :
    (∀ (user q : String) (repos : List Repo) (x : Result),
      x ∈ repoResults user q repos → x.modified = none) ∧
    (∀ (user q : String) (gists : List Gist) (x : Result),
      x ∈ gistResults user q gists → x.modified = none) ∧
    (∀ (md : String → String) (ts : String → Int) (items : List IssueItem)
        (x : Result),
      x ∈ liveResults md ts items →
        ∃ it ∈ items, x.modified = some (ts it.updated_at)) ∧
    (∀ (md : String → String) (ts : String → Int) fetch live
        (users : List String) (q : String) (rs : List Result)
        (cl : List String),
      searchUsers true md ts fetch live users q = .ok (rs, cl) →
      ∀ x ∈ rs, ModifiedShape live ts x) := by
  refine ⟨?_, ?_, ?_, ?_⟩
  · intro user q repos x hx
    obtain ⟨r, _, rfl⟩ := List.mem_map.mp (by simpa [repoResults] using hx)
    rfl
  · intro user q gists x hx
    obtain ⟨g, _, rfl⟩ := List.mem_map.mp (by simpa [gistResults] using hx)
    rfl
  · intro md ts items x hx
    obtain ⟨it, hit, rfl⟩ := List.mem_map.mp (by simpa [liveResults] using hx)
    exact ⟨it, hit, rfl⟩
  · intro md ts fetch live users q rs cl h
    refine searchUsersGo_modified md ts fetch live q users 0 [] [] rs cl
      (by simp) ?_
    simpa [searchUsers] using h

/-- C10 witness: the four conjuncts applied at concrete inputs — a repo
result and a gist result without `modified`, a live result with it, and a
resolved search output. -/
theorem c10_modified_only_live_witness :
    ((mkRepoResult "alice" ⟨some "d", false, false, "x"⟩ ∈
        repoResults "alice" "d" [⟨some "d", false, false, "x"⟩]) ∧
      (mkRepoResult "alice" ⟨some "d", false, false, "x"⟩).modified = none) ∧
    ((mkGistResult "alice" ⟨some "d", "g1", "2020", "https://g"⟩ ∈
        gistResults "alice" "d" [⟨some "d", "g1", "2020", "https://g"⟩]) ∧
      (mkGistResult "alice" ⟨some "d", "g1", "2020", "https://g"⟩).modified = none) ∧
    (∃ it ∈ [(⟨none, "https://github.com/alice/r/issues/1", 1, false, "t",
        "2020", "alice"⟩ : IssueItem)],
      (mkLiveResult (fun s => s) (fun _ => (0 : Int))
        ⟨none, "https://github.com/alice/r/issues/1", 1, false, "t",
          "2020", "alice"⟩).modified = some ((fun _ => (0 : Int)) it.updated_at)) ∧
    (∀ x ∈ [mkRepoResult "bob" ⟨some "d", false, false, "x"⟩],
      ModifiedShape (fun _ => .ok []) (fun _ => (0 : Int)) x) :=
  ⟨⟨by decide,
    c10_modified_only_live.1 "alice" "d" [⟨some "d", false, false, "x"⟩]
      (mkRepoResult "alice" ⟨some "d", false, false, "x"⟩) (by decide)⟩,
   ⟨by decide,
    c10_modified_only_live.2.1 "alice" "d" [⟨some "d", "g1", "2020", "https://g"⟩]
      (mkGistResult "alice" ⟨some "d", "g1", "2020", "https://g"⟩) (by decide)⟩,
   c10_modified_only_live.2.2.1 (fun s => s) (fun _ => (0 : Int))
     [⟨none, "https://github.com/alice/r/issues/1", 1, false, "t", "2020", "alice"⟩]
     (mkLiveResult (fun s => s) (fun _ => (0 : Int))
       ⟨none, "https://github.com/alice/r/issues/1", 1, false, "t", "2020", "alice"⟩)
     (by decide),
   c10_modified_only_live.2.2.2 (fun s => s) (fun _ => (0 : Int))
     (fun _ => .ok [("bob", [⟨some "d", false, false, "x"⟩])]) (fun _ => .ok [])
     ["bob"] "d" [mkRepoResult "bob" ⟨some "d", false, false, "x"⟩] ["bob"] (by rfl)⟩
